import Mathlib

/-!
Verification development for the ed25519 keystore module
(`src/rust/bitbox02-rust/src/keystore/ed25519.rs`) of the bitbox02
firmware: BIP32-Ed25519 key derivation and signing.

The module under `src/` is a thin wrapper over three collaborators that
live outside `src/`: the seed provider (`bitbox02::keystore`), the
derivation engine (`bip32_ed25519` crate) and the signing primitives
(`ed25519_dalek` crate).  Wherever a definition embeds such a missing
collaborator it is modelled from the specification document and its doc
comment says so.

Bytes are modelled as `Nat` values `< 256` inside `List Nat`; machine
words are `Nat` with explicit reduction `% 2^64`; field elements are
`Nat` with explicit reduction modulo `2^255 - 19`.
-/

set_option maxRecDepth 8192

namespace BitBox

/-- Little-endian serialization of a natural number into `n` bytes. -/
def toLE : Nat → Nat → List Nat
  | 0, _ => []
  | n + 1, v => (v % 256) :: toLE n (v / 256)

/-- Little-endian deserialization of a byte list into a natural number. -/
def fromLE (l : List Nat) : Nat :=
  l.foldr (fun b acc => acc * 256 + b % 256) 0

/-- Big-endian serialization of a natural number into `n` bytes. -/
def toBE : Nat → Nat → List Nat
  | 0, _ => []
  | n + 1, v => toBE n (v / 256) ++ [v % 256]

/-- Big-endian deserialization of a byte list into a natural number. -/
def fromBE (l : List Nat) : Nat :=
  l.foldl (fun acc b => acc * 256 + b % 256) 0

theorem toLE_length (n v : Nat) : (toLE n v).length = n := by
  induction n generalizing v with
  | zero => rfl
  | succ n ih => simp [toLE, ih]

theorem fromLE_toLE (n v : Nat) (h : v < 2 ^ (8 * n)) : fromLE (toLE n v) = v := by
  induction n generalizing v with
  | zero =>
    simp only [Nat.mul_zero, pow_zero, Nat.lt_one_iff] at h
    simp [h, toLE, fromLE]
  | succ n ih =>
    have hdiv : v / 256 < 2 ^ (8 * n) := by
      apply Nat.div_lt_of_lt_mul
      calc v < 2 ^ (8 * (n + 1)) := h
        _ = 256 * 2 ^ (8 * n) := by ring
    have := ih (v / 256) hdiv
    simp only [toLE, fromLE, List.foldr_cons] at *
    omega

theorem toLE_fromLE (l : List Nat) (hb : ∀ b ∈ l, b < 256) :
    toLE l.length (fromLE l) = l := by
  induction l with
  | nil => rfl
  | cons b rest ih =>
    have hbb : b < 256 := hb b (by simp)
    have hrest : ∀ x ∈ rest, x < 256 := fun x hx => hb x (by simp [hx])
    simp only [fromLE, List.foldr_cons, List.length_cons, toLE]
    have h0 : ((rest.foldr (fun b acc => acc * 256 + b % 256) 0) * 256 + b % 256) % 256
        = b := by omega
    have h1 : ((rest.foldr (fun b acc => acc * 256 + b % 256) 0) * 256 + b % 256) / 256
        = rest.foldr (fun b acc => acc * 256 + b % 256) 0 := by omega
    rw [h0, h1]
    have := ih hrest
    simp only [fromLE] at this
    rw [this]

/-- Split a byte list into chunks of `n` elements. -/
def chunks (n : Nat) (l : List Nat) : List (List Nat) :=
  if h : l = [] ∨ n = 0 then []
  else (l.take n) :: chunks n (l.drop n)
termination_by l.length
decreasing_by
  push_neg at h
  simp only [List.length_drop]
  have : 0 < l.length := List.length_pos.mpr h.1
  omega

/-- Group a byte list into big-endian 64-bit words, 8 bytes per word. -/
def bytesToWords : List Nat → List Nat
  | b0 :: b1 :: b2 :: b3 :: b4 :: b5 :: b6 :: b7 :: rest =>
      fromBE [b0, b1, b2, b3, b4, b5, b6, b7] :: bytesToWords rest
  | _ => []

/-- Right rotation of a 64-bit word. -/
def rotr64 (x n : Nat) : Nat :=
  ((x >>> n) ||| (x <<< (64 - n))) % 2 ^ 64

/-- SHA-512 round constants (fractional parts of the cube roots of the
first eighty primes). -/
def sha512K : List Nat := [
  4794697086780616226, 8158064640168781261, 13096744586834688815,
  16840607885511220156, 4131703408338449720, 6480981068601479193,
  10538285296894168987, 12329834152419229976, 15566598209576043074,
  1334009975649890238, 2608012711638119052, 6128411473006802146,
  8268148722764581231, 9286055187155687089, 11230858885718282805,
  13951009754708518548, 16472876342353939154, 17275323862435702243,
  1135362057144423861, 2597628984639134821, 3308224258029322869,
  5365058923640841347, 6679025012923562964, 8573033837759648693,
  10970295158949994411, 12119686244451234320, 12683024718118986047,
  13788192230050041572, 14330467153632333762, 15395433587784984357,
  489312712824947311, 1452737877330783856, 2861767655752347644,
  3322285676063803686, 5560940570517711597, 5996557281743188959,
  7280758554555802590, 8532644243296465576, 9350256976987008742,
  10552545826968843579, 11727347734174303076, 12113106623233404929,
  14000437183269869457, 14369950271660146224, 15101387698204529176,
  15463397548674623760, 17586052441742319658, 1182934255886127544,
  1847814050463011016, 2177327727835720531, 2830643537854262169,
  3796741975233480872, 4115178125766777443, 5681478168544905931,
  6601373596472566643, 7507060721942968483, 8399075790359081724,
  8693463985226723168, 9568029438360202098, 10144078919501101548,
  10430055236837252648, 11840083180663258601, 13761210420658862357,
  14299343276471374635, 14566680578165727644, 15097957966210449927,
  16922976911328602910, 17689382322260857208, 500013540394364858,
  748580250866718886, 1242879168328830382, 1977374033974150939,
  2944078676154940804, 3659926193048069267, 4368137639120453308,
  4836135668995329356, 5532061633213252278, 6448918945643986474,
  6902733635092675308, 7801388544844847127]

/-- SHA-512 initial hash value (fractional parts of the square roots of
the first eight primes). -/
def sha512IV : List Nat := [
  7640891576956012808, 13503953896175478587,
  4354685564936845355, 11912009170470909681,
  5840696475078001361, 11170449401992604703,
  2270897969802886507, 6620516959819538809]

def bigSigma0 (x : Nat) : Nat := rotr64 x 28 ^^^ rotr64 x 34 ^^^ rotr64 x 39

def bigSigma1 (x : Nat) : Nat := rotr64 x 14 ^^^ rotr64 x 18 ^^^ rotr64 x 41

def smallSigma0 (x : Nat) : Nat := rotr64 x 1 ^^^ rotr64 x 8 ^^^ (x >>> 7)

def smallSigma1 (x : Nat) : Nat := rotr64 x 19 ^^^ rotr64 x 61 ^^^ (x >>> 6)

/-- Extend a 16-word message block by `n` further schedule words. -/
def msgSchedule : List Nat → Nat → List Nat
  | w, 0 => w
  | w, n + 1 =>
    let t := w.length
    let next := (smallSigma1 (w.getD (t - 2) 0) + w.getD (t - 7) 0 +
        smallSigma0 (w.getD (t - 15) 0) + w.getD (t - 16) 0) % 2 ^ 64
    msgSchedule (w ++ [next]) n

/-- Working state of the SHA-512 compression function. -/
structure Sha512State where
  a : Nat
  b : Nat
  c : Nat
  d : Nat
  e : Nat
  f : Nat
  g : Nat
  h : Nat
deriving Repr, DecidableEq

/-- One SHA-512 round, consuming one (constant, schedule-word) pair. -/
def sha512Round (s : Sha512State) (kw : Nat × Nat) : Sha512State :=
  let ch := (s.e &&& s.f) ^^^ ((s.e ^^^ (2 ^ 64 - 1)) &&& s.g)
  let maj := (s.a &&& s.b) ^^^ (s.a &&& s.c) ^^^ (s.b &&& s.c)
  let t1 := (s.h + bigSigma1 s.e + ch + kw.1 + kw.2) % 2 ^ 64
  let t2 := (bigSigma0 s.a + maj) % 2 ^ 64
  ⟨(t1 + t2) % 2 ^ 64, s.a, s.b, s.c, (s.d + t1) % 2 ^ 64, s.e, s.f, s.g⟩

/-- SHA-512 compression of one 16-word block into the running hash. -/
def sha512Compress (h : List Nat) (block : List Nat) : List Nat :=
  let w := msgSchedule block 64
  let s0 : Sha512State := ⟨h.getD 0 0, h.getD 1 0, h.getD 2 0, h.getD 3 0,
    h.getD 4 0, h.getD 5 0, h.getD 6 0, h.getD 7 0⟩
  let s := (sha512K.zip w).foldl sha512Round s0
  [(s.a + h.getD 0 0) % 2 ^ 64, (s.b + h.getD 1 0) % 2 ^ 64,
   (s.c + h.getD 2 0) % 2 ^ 64, (s.d + h.getD 3 0) % 2 ^ 64,
   (s.e + h.getD 4 0) % 2 ^ 64, (s.f + h.getD 5 0) % 2 ^ 64,
   (s.g + h.getD 6 0) % 2 ^ 64, (s.h + h.getD 7 0) % 2 ^ 64]

/-- SHA-512 padding: append `0x80`, zero bytes up to 112 mod 128, then
the bit length as a 16-byte big-endian integer. -/
def sha512Pad (msg : List Nat) : List Nat :=
  let l := msg.length
  let zeros := (128 + 112 - (l + 1) % 128) % 128
  msg ++ [0x80] ++ List.replicate zeros 0 ++ toBE 16 (l * 8)

/-- SHA-512 of a byte list, producing 64 bytes. -/
def sha512 (msg : List Nat) : List Nat :=
  let blocks := chunks 16 (bytesToWords (sha512Pad msg))
  let h := blocks.foldl sha512Compress sha512IV
  (h.map (toBE 8)).flatten

/-- HMAC-SHA512 with the given key over the given message. -/
def hmacSha512 (key msg : List Nat) : List Nat :=
  let k0 := if 128 < key.length then sha512 key ++ List.replicate 48 0
            else key ++ List.replicate (128 - key.length) 0
  let ipad := k0.map (fun b => b ^^^ 0x36)
  let opad := k0.map (fun b => b ^^^ 0x5c)
  sha512 (opad ++ sha512 (ipad ++ msg))

/-- The field prime of Curve25519. -/
def P25519 : Nat := 2 ^ 255 - 19

/-- The Edwards curve parameter d of ed25519. -/
def edD : Nat :=
  37095705934669439343138083508754565189542113879843219016388785533085940283555

/-- The order of the prime-order subgroup of ed25519. -/
def orderL : Nat := 2 ^ 252 + 27742317777372353535851937790883648493

def fadd (a b : Nat) : Nat := (a + b) % P25519

def fmul (a b : Nat) : Nat := (a * b) % P25519

def fsub (a b : Nat) : Nat := (a + (P25519 - b % P25519)) % P25519

/-- Modular exponentiation in the Curve25519 field by binary splitting. -/
def fpow (b e : Nat) : Nat :=
  if h : e = 0 then 1
  else
    let r := fpow ((b * b) % P25519) (e / 2)
    if e % 2 = 1 then (b * r) % P25519 else r
termination_by e
decreasing_by exact Nat.div_lt_self (Nat.pos_of_ne_zero h) one_lt_two

/-- Modular inverse in the Curve25519 field via Fermat's little theorem. -/
def finv (a : Nat) : Nat := fpow (a % P25519) (P25519 - 2)

/-- A point of the ed25519 curve in extended homogeneous coordinates. -/
structure EdPoint where
  x : Nat
  y : Nat
  z : Nat
  t : Nat
deriving Repr, DecidableEq

/-- The neutral element of the curve group. -/
def edZero : EdPoint := ⟨0, 1, 1, 0⟩

/-- Point addition on ed25519 in extended homogeneous coordinates
(the standard complete addition formulas for twisted Edwards curves
with a = -1). -/
def edAdd (p q : EdPoint) : EdPoint :=
  let ea := fmul (fsub p.y p.x) (fsub q.y q.x)
  let eb := fmul (fadd p.y p.x) (fadd q.y q.x)
  let ec := fmul (fmul p.t (fmul 2 edD)) q.t
  let ed := fmul p.z (fmul 2 q.z)
  let ee := fsub eb ea
  let ef := fsub ed ec
  let eg := fadd ed ec
  let eh := fadd eb ea
  ⟨fmul ee ef, fmul eg eh, fmul ef eg, fmul ee eh⟩

/-- Scalar multiplication on the curve by binary splitting of the scalar. -/
def scalarMul (n : Nat) (q : EdPoint) : EdPoint :=
  if h : n = 0 then edZero
  else
    let r := scalarMul (n / 2) q
    let d := edAdd r r
    if n % 2 = 1 then edAdd d q else d
termination_by n
decreasing_by exact Nat.div_lt_self (Nat.pos_of_ne_zero h) one_lt_two

/-- The ed25519 base point in extended homogeneous coordinates. -/
def basePoint : EdPoint :=
  ⟨15112221349535400772501151409588531511454012693041857206046113283949847762202,
   46316835694926478169428394003475163141307993866256225615783033603165251855960,
   1,
   15112221349535400772501151409588531511454012693041857206046113283949847762202 *
     46316835694926478169428394003475163141307993866256225615783033603165251855960 %
     P25519⟩

/-- Compression of a curve point to its 32-byte encoding: the y
coordinate in little endian with the parity of x in the top bit. -/
def pointCompress (p : EdPoint) : List Nat :=
  let zi := finv p.z
  let xa := p.x * zi % P25519
  let ya := p.y * zi % P25519
  toLE 32 (ya + 2 ^ 255 * (xa % 2))

/-- Scalar multiplication of the base point, compressed to 32 bytes. -/
def scalarMulBase (n : Nat) : List Nat := pointCompress (scalarMul n basePoint)

/-- Size in bytes of an ed25519 expanded secret key, as in the
`bip32_ed25519` crate constant used by `get_xprv`. -/
def ED25519_EXPANDED_SECRET_KEY_SIZE : Nat := 64

/-- Offset marking a derivation index as hardened. -/
def HARDENED_OFFSET : Nat := 2 ^ 31

/-- Modelled from the spec: the extended private key type `Xprv` of the
`bip32_ed25519` crate (not under `src/`), per spec section 3: a clamped
scalar, a nonce-derivation prefix and a chain code.  The scalar and the
nonce half are kept as natural numbers below `2^256`; the public key is
recomputed from the scalar on demand, which realises the invariant that
the public key is always the point corresponding to the scalar. -/
structure Xprv where
  kl : Nat
  kr : Nat
  cc : List Nat
deriving Repr, DecidableEq

/-- Modelled from the spec: the extended public key type `Xpub` of the
`bip32_ed25519` crate (not under `src/`): a 32-byte curve point and a
32-byte chain code. -/
structure Xpub where
  pubkey : List Nat
  cc : List Nat
deriving Repr, DecidableEq

/-- Accessor view of the 32-byte public key, as in the crate's
`pubkey_bytes()`. -/
def Xpub.pubkey_bytes (x : Xpub) : List Nat := x.pubkey

/-- Accessor view of the 32-byte chain code, as in the crate's
`chain_code()`. -/
def Xpub.chain_code (x : Xpub) : List Nat := x.cc

/-- Modelled from the spec (section 4.1): the standard Ed25519 clamping
rule on the scalar half — clear the lowest three bits, clear the highest
bit, set the second-highest bit (bit 254). -/
def clamp (n : Nat) : Nat := 2 ^ 254 + n % 2 ^ 254 / 8 * 8

/-- Modelled from the spec (section 4.1): `Xprv::from_normalize` of the
`bip32_ed25519` crate (not under `src/`).  Clamps the first 32 bytes of
the candidate expanded secret key, keeps the next 32 bytes as the nonce
prefix unchanged, and records the chain code; total for every input. -/
def Xprv.from_normalize (esk cc : List Nat) : Xprv :=
  ⟨clamp (fromLE (esk.take 32)), fromLE (esk.drop 32), cc⟩

/-- The 64-byte expanded secret key view of an `Xprv`, as in the crate's
`expanded_secret_key()`: scalar half then nonce half, little endian. -/
def Xprv.expanded_secret_key (x : Xprv) : List Nat := toLE 32 x.kl ++ toLE 32 x.kr

/-- Modelled from the spec (section 4.4): `public()` projects an
extended private key to the extended public key, recomputing the curve
point from the scalar and keeping the chain code. -/
def Xprv.public (x : Xprv) : Xpub := ⟨scalarMulBase x.kl, x.cc⟩

/-- Modelled from the spec (section 4.2): the 64 bytes of key-update
material for one derivation step at a given retry iteration, produced by
HMAC-SHA512 keyed by the chain code.  A hardened index mixes the full
secret (scalar and nonce prefix), a soft index substitutes the public
key; a domain-separation tag byte distinguishes the modes and the retry
iteration counter is appended to the hashed message. -/
def candidateZ (x : Xprv) (index iter : Nat) : List Nat :=
  if HARDENED_OFFSET ≤ index then
    hmacSha512 x.cc
      ([0x00] ++ toLE 32 x.kl ++ toLE 32 x.kr ++ toLE 4 (index % 2 ^ 32) ++ toLE 2 iter)
  else
    hmacSha512 x.cc
      ([0x02] ++ scalarMulBase x.kl ++ toLE 4 (index % 2 ^ 32) ++ toLE 2 iter)

/-- Modelled from the spec (section 4.2): the child chain code for one
derivation step, from a second HMAC call with a different tag byte. -/
def candidateCc (x : Xprv) (index iter : Nat) : List Nat :=
  (if HARDENED_OFFSET ≤ index then
    hmacSha512 x.cc
      ([0x01] ++ toLE 32 x.kl ++ toLE 32 x.kr ++ toLE 4 (index % 2 ^ 32) ++ toLE 2 iter)
  else
    hmacSha512 x.cc
      ([0x03] ++ scalarMulBase x.kl ++ toLE 4 (index % 2 ^ 32) ++ toLE 2 iter)).drop 32

/-- Modelled from the spec (section 4.2): the candidate child scalar —
the scalar update (first half of the key material) added to the parent
scalar modulo the group order. -/
def candidateKl (x : Xprv) (index iter : Nat) : Nat :=
  (x.kl + fromLE ((candidateZ x index iter).take 32)) % orderL

/-- Modelled from the spec (section 4.2): the candidate child nonce —
the nonce update (second half of the key material) added to the parent
nonce modulo `2^256`. -/
def candidateKr (x : Xprv) (index iter : Nat) : Nat :=
  (x.kr + fromLE ((candidateZ x index iter).drop 32)) % 2 ^ 256

/-- Modelled from the spec (section 4.2): the scalar-validity check of
the reference construction — the third-highest bit (bit 253) must be
clear, otherwise the derivation step is retried. -/
def validKl (k : Nat) : Bool := !(k.testBit 253)

/-- Modelled from the spec (sections 4.2 and 9): the retry loop of one
derivation step, trying successive iteration counters while the
candidate scalar fails the validity check; the remaining fuel bounds the
number of attempts, and exhausting it signals an internal invariant
violation (`none`). -/
def deriveStepAux (x : Xprv) (index : Nat) : Nat → Nat → Option Xprv
  | _, 0 => none
  | iter, fuel + 1 =>
    if validKl (candidateKl x index iter) then
      some ⟨candidateKl x index iter, candidateKr x index iter, candidateCc x index iter⟩
    else deriveStepAux x index (iter + 1) fuel

/-- Modelled from the spec (section 4.2): one child-derivation step,
retrying up to the sanity bound of 1000 iterations. -/
def deriveStep (x : Xprv) (index : Nat) : Option Xprv := deriveStepAux x index 0 1000

/-- Modelled from the spec (section 4.3): `derive_path` applies the
single-step derivation sequentially, left to right, starting from the
given key; `none` propagates an internal invariant violation. -/
def derive_path (x : Xprv) (path : List Nat) : Option Xprv :=
  path.foldl (fun acc i => acc.bind (fun y => deriveStep y i)) (some x)

/-- Outcome of a fallible firmware call: a value, the unit error
`Err(())` of the Rust code, or an abnormal termination (an out-of-bounds
slice panic or an internal invariant violation). -/
inductive Outcome (α : Type) where
  | ok : α → Outcome α
  | err : Outcome α
  | crash : Outcome α
deriving Repr, DecidableEq

/-- Modelled from the spec (section 6): the state the seed provider
`bitbox02::keystore` (not under `src/`) depends on — whether the
keystore is unlocked, and the root seed bytes it would hand out. -/
structure KeystoreState where
  locked : Bool
  seed : List Nat
deriving Repr, DecidableEq

/-- Modelled from the spec (section 6): `get_seed` returns the root seed
bytes only when the keystore is unlocked and otherwise fails with the
unit error, as `bitbox02::keystore::get_ed25519_seed` does. -/
def get_seed (s : KeystoreState) : Outcome (List Nat) :=
  if s.locked then Outcome.err else Outcome.ok s.seed

/-- Rust slice-to-prefix indexing `l[..n]`: defined when `n` is within
bounds, a panic (`none`) otherwise. -/
def sliceTo (l : List Nat) (n : Nat) : Option (List Nat) :=
  if n ≤ l.length then some (l.take n) else none

/-- Rust slice-from indexing `l[n..]`: defined when `n` is within
bounds, a panic (`none`) otherwise. -/
def sliceFrom (l : List Nat) (n : Nat) : Option (List Nat) :=
  if n ≤ l.length then some (l.drop n) else none

/-- Embedding of `get_xprv` from `ed25519.rs`: fetch the seed, split it
at `ED25519_EXPANDED_SECRET_KEY_SIZE` with the slice expressions
`root[..64]` and `root[64..]`, normalize into the root key and walk the
derivation path.  A slice out of bounds or a derivation invariant
violation is a crash, not a returned error. -/
def get_xprv (s : KeystoreState) (keypath : List Nat) : Outcome Xprv :=
  match get_seed s with
  | Outcome.err => Outcome.err
  | Outcome.crash => Outcome.crash
  | Outcome.ok root =>
    match sliceTo root ED25519_EXPANDED_SECRET_KEY_SIZE,
        sliceFrom root ED25519_EXPANDED_SECRET_KEY_SIZE with
    | some esk, some cc =>
      match derive_path (Xprv.from_normalize esk cc) keypath with
      | some x => Outcome.ok x
      | none => Outcome.crash
    | _, _ => Outcome.crash

/-- Embedding of `get_xpub` from `ed25519.rs`: the public projection of
`get_xprv`, propagating its error. -/
def get_xpub (s : KeystoreState) (keypath : List Nat) : Outcome Xpub :=
  match get_xprv s keypath with
  | Outcome.ok x => Outcome.ok x.public
  | Outcome.err => Outcome.err
  | Outcome.crash => Outcome.crash

/-- Modelled from the spec (section 4.5): the expanded secret key of
`ed25519_dalek` (not under `src/`) — a curve scalar and a 32-byte nonce
prefix. -/
structure ExpandedSecretKey where
  key : Nat
  nonce : List Nat
deriving Repr, DecidableEq

/-- Modelled from the spec (section 4.5): parsing of the signing
primitive `ed25519_dalek::ExpandedSecretKey::from_bytes` (not under
`src/`): fails unless given exactly 64 bytes; the scalar half is read
with the top bit cleared (`Scalar::from_bits`), the nonce half is kept. -/
def ExpandedSecretKey.from_bytes (b : List Nat) : Except Unit ExpandedSecretKey :=
  if b.length = 64 then
    Except.ok ⟨fromLE (b.take 32) % 2 ^ 255, b.drop 32⟩
  else Except.error ()

/-- Modelled from the spec (section 4.5): the public key recomputed from
an expanded secret key, as `ed25519_dalek::PublicKey::from`. -/
def publicKeyFrom (k : ExpandedSecretKey) : List Nat := scalarMulBase k.key

/-- Modelled from the spec (section 4.5): deterministic EdDSA signing
with an expanded secret key as `ed25519_dalek::ExpandedSecretKey::sign`:
nonce from the prefix and message, commitment point, challenge scalar,
response scalar; the 64-byte signature is the compressed commitment
followed by the response. -/
def ExpandedSecretKey.dalekSign (k : ExpandedSecretKey) (msg pk : List Nat) : List Nat :=
  let r := fromLE (sha512 (k.nonce ++ msg)) % orderL
  let rPoint := scalarMulBase r
  let hram := fromLE (sha512 (rPoint ++ pk ++ msg)) % orderL
  let s := (hram * k.key + r) % orderL
  rPoint ++ toLE 32 s

/-- Embedding of the result type `SignResult` of `ed25519.rs`. -/
structure SignResult where
  signature : List Nat
  public_key : List Nat
deriving Repr, DecidableEq

/-- Embedding of `sign` from `ed25519.rs`: derive the extended private
key for the path, parse its 64-byte expanded secret key into the signing
primitive (surfacing a parse failure as the unit error), recompute the
public key from it, and sign the 32-byte message. -/
def sign (s : KeystoreState) (keypath : List Nat) (msg : List Nat) : Outcome SignResult :=
  match get_xprv s keypath with
  | Outcome.err => Outcome.err
  | Outcome.crash => Outcome.crash
  | Outcome.ok xprv =>
    match ExpandedSecretKey.from_bytes xprv.expanded_secret_key with
    | Except.error _ => Outcome.err
    | Except.ok secret_key =>
      Outcome.ok ⟨secret_key.dalekSign msg (publicKeyFrom secret_key),
        publicKeyFrom secret_key⟩

theorem scalarMulBase_length (n : Nat) : (scalarMulBase n).length = 32 := by
  simp [scalarMulBase, pointCompress, toLE_length]

theorem expanded_secret_key_length (x : Xprv) : x.expanded_secret_key.length = 64 := by
  simp [Xprv.expanded_secret_key, toLE_length]

theorem derive_path_nil (x : Xprv) : derive_path x [] = some x := rfl

theorem derive_path_from_none (p : List Nat) :
    p.foldl (fun acc i => acc.bind (fun y => deriveStep y i)) none = none := by
  induction p with
  | nil => rfl
  | cons i p ih => simpa using ih

theorem derive_path_cons (x : Xprv) (i : Nat) (p : List Nat) :
    derive_path x (i :: p) = (deriveStep x i).bind (fun y => derive_path y p) := by
  simp only [derive_path, List.foldl_cons, Option.bind]
  cases deriveStep x i with
  | none => exact derive_path_from_none p
  | some y => rfl

theorem orderL_pos : 0 < orderL := by
  norm_num [orderL]

theorem candidateKl_lt (x : Xprv) (index iter : Nat) :
    candidateKl x index iter < orderL :=
  Nat.mod_lt _ orderL_pos

theorem deriveStepAux_none (x : Xprv) (index : Nat) (it fuel : Nat)
    (h : deriveStepAux x index it fuel = none) :
    ∀ i, it ≤ i → i < it + fuel → validKl (candidateKl x index i) = false := by
  induction fuel generalizing it with
  | zero => omega
  | succ fuel ih =>
    intro i hi1 hi2
    rw [deriveStepAux] at h
    by_cases hv : validKl (candidateKl x index it) = true
    · simp [hv] at h
    · simp only [Bool.not_eq_true] at hv
      simp only [hv, Bool.false_eq_true, if_false] at h
      rcases Nat.eq_or_lt_of_le hi1 with heq | hlt
      · exact heq ▸ hv
      · exact ih (it + 1) h i hlt (by omega)

theorem deriveStepAux_some (x : Xprv) (index : Nat) (it fuel : Nat) (c : Xprv)
    (h : deriveStepAux x index it fuel = some c) :
    ∃ i, it ≤ i ∧ i < it + fuel ∧ validKl (candidateKl x index i) = true ∧
      (∀ j, it ≤ j → j < i → validKl (candidateKl x index j) = false) ∧
      c = ⟨candidateKl x index i, candidateKr x index i, candidateCc x index i⟩ := by
  induction fuel generalizing it with
  | zero => simp [deriveStepAux] at h
  | succ fuel ih =>
    rw [deriveStepAux] at h
    by_cases hv : validKl (candidateKl x index it) = true
    · refine ⟨it, le_refl it, by omega, hv, fun j hj1 hj2 => by omega, ?_⟩
      simp only [hv, if_true] at h
      exact (Option.some_inj.mp h).symm
    · simp only [Bool.not_eq_true] at hv
      simp only [hv, Bool.false_eq_true, if_false] at h
      obtain ⟨i, hi1, hi2, hi3, hi4, hi5⟩ := ih (it + 1) h
      refine ⟨i, by omega, by omega, hi3, ?_, hi5⟩
      intro j hj1 hj2
      rcases Nat.eq_or_lt_of_le hj1 with heq | hlt
      · exact heq ▸ hv
      · exact hi4 j hlt hj2

theorem deriveStep_some_kl_lt (x : Xprv) (index : Nat) (c : Xprv)
    (h : deriveStep x index = some c) : c.kl < orderL := by
  obtain ⟨i, _, _, _, _, hc⟩ := deriveStepAux_some x index 0 1000 c h
  rw [hc]
  exact candidateKl_lt x index i

theorem orderL_lt_two_pow : orderL < 2 ^ 255 := by
  norm_num [orderL]

theorem clamp_lt (n : Nat) : clamp n < 2 ^ 255 := by
  have h1 : n % 2 ^ 254 / 8 * 8 ≤ n % 2 ^ 254 := Nat.div_mul_le_self _ _
  have h2 : n % 2 ^ 254 < 2 ^ 254 :=
    Nat.mod_lt _ (Nat.pos_pow_of_pos 254 (by norm_num))
  have h3 : (2 : Nat) ^ 255 = 2 ^ 254 + 2 ^ 254 := by ring
  simp only [clamp]
  omega

theorem derive_path_kl_lt (p : List Nat) (x y : Xprv)
    (h : derive_path x p = some y) (hx : x.kl < 2 ^ 255) : y.kl < 2 ^ 255 := by
  induction p generalizing x with
  | nil => rw [derive_path_nil] at h; exact (Option.some_inj.mp h) ▸ hx
  | cons i p ih =>
    rw [derive_path_cons] at h
    cases hs : deriveStep x i with
    | none => rw [hs] at h; simp at h
    | some z =>
      rw [hs] at h
      simp only [Option.some_bind] at h
      exact ih z h (lt_trans (deriveStep_some_kl_lt x i z hs) orderL_lt_two_pow)

theorem get_xprv_ok_iff (s : KeystoreState) (path : List Nat) (x : Xprv) :
    get_xprv s path = Outcome.ok x ↔
      s.locked = false ∧ 64 ≤ s.seed.length ∧
        derive_path (Xprv.from_normalize (s.seed.take 64) (s.seed.drop 64)) path
          = some x := by
  cases hl : s.locked with
  | true => simp [get_xprv, get_seed, hl]
  | false =>
    by_cases hlen : 64 ≤ s.seed.length
    · have hTo : sliceTo s.seed ED25519_EXPANDED_SECRET_KEY_SIZE
          = some (s.seed.take 64) := by
        simp [sliceTo, ED25519_EXPANDED_SECRET_KEY_SIZE, hlen]
      have hFrom : sliceFrom s.seed ED25519_EXPANDED_SECRET_KEY_SIZE
          = some (s.seed.drop 64) := by
        simp [sliceFrom, ED25519_EXPANDED_SECRET_KEY_SIZE, hlen]
      simp only [get_xprv, get_seed, hl, Bool.false_eq_true, if_false, hTo, hFrom]
      cases hd : derive_path (Xprv.from_normalize (s.seed.take 64) (s.seed.drop 64)) path with
      | none => simp [hd, hlen]
      | some y => simp [hd, hlen]
    · have hTo : sliceTo s.seed ED25519_EXPANDED_SECRET_KEY_SIZE = none := by
        simp [sliceTo, ED25519_EXPANDED_SECRET_KEY_SIZE, hlen]
      simp [get_xprv, get_seed, hl, hTo, hlen]

theorem get_xprv_kl_lt (s : KeystoreState) (path : List Nat) (x : Xprv)
    (h : get_xprv s path = Outcome.ok x) : x.kl < 2 ^ 255 := by
  obtain ⟨_, _, hd⟩ := (get_xprv_ok_iff s path x).mp h
  exact derive_path_kl_lt path _ x hd (clamp_lt _)

/-- Claim C1: for every derivation path, `get_xpub` and `sign` return
the explicit unit error when the keystore is locked (because `get_seed`
fails), and succeed once the keystore is unlocked with the same path and
a seed of the expected size, provided the derivation completes within
its sanity bound; the locked failure is an error result, never a default
value. -/
theorem C1_locked_state_gating (s : KeystoreState) (path msg : List Nat) :
    (s.locked = true → get_xpub s path = Outcome.err ∧ sign s path msg = Outcome.err) ∧
    (s.locked = false → 64 ≤ s.seed.length →
      ∀ x, derive_path (Xprv.from_normalize (s.seed.take 64) (s.seed.drop 64)) path
          = some x →
        get_xpub s path = Outcome.ok x.public ∧ ∃ r, sign s path msg = Outcome.ok r) := by
  constructor
  · intro hl
    have hx : get_xprv s path = Outcome.err := by simp [get_xprv, get_seed, hl]
    exact ⟨by simp [get_xpub, hx], by simp [sign, hx]⟩
  · intro hl hlen x hd
    have hx : get_xprv s path = Outcome.ok x := (get_xprv_ok_iff s path x).mpr ⟨hl, hlen, hd⟩
    have hfb : ExpandedSecretKey.from_bytes x.expanded_secret_key
        = Except.ok ⟨fromLE (x.expanded_secret_key.take 32) % 2 ^ 255,
            x.expanded_secret_key.drop 32⟩ := by
      simp [ExpandedSecretKey.from_bytes, expanded_secret_key_length]
    have hs : sign s path msg = Outcome.ok
        ⟨ExpandedSecretKey.dalekSign
            ⟨fromLE (x.expanded_secret_key.take 32) % 2 ^ 255, x.expanded_secret_key.drop 32⟩
            msg
            (publicKeyFrom
              ⟨fromLE (x.expanded_secret_key.take 32) % 2 ^ 255,
                x.expanded_secret_key.drop 32⟩),
          publicKeyFrom
            ⟨fromLE (x.expanded_secret_key.take 32) % 2 ^ 255,
              x.expanded_secret_key.drop 32⟩⟩ := by
      simp [sign, hx, hfb]
    exact ⟨by simp [get_xpub, hx], ⟨_, hs⟩⟩

/-- Witness for C1 at a locked and an unlocked concrete keystore state
with a 96-byte seed and the empty path. -/
theorem C1_locked_state_gating_witness :
    (get_xpub ⟨true, List.replicate 96 0⟩ [] = Outcome.err ∧
      sign ⟨true, List.replicate 96 0⟩ [] (List.replicate 32 0) = Outcome.err) ∧
    (get_xpub ⟨false, List.replicate 96 0⟩ [] = Outcome.ok
        (Xprv.from_normalize ((List.replicate 96 0).take 64)
          ((List.replicate 96 0).drop 64)).public ∧
      ∃ r, sign ⟨false, List.replicate 96 0⟩ [] (List.replicate 32 0) = Outcome.ok r) :=
  ⟨(C1_locked_state_gating ⟨true, List.replicate 96 0⟩ [] (List.replicate 32 0)).1 rfl,
   (C1_locked_state_gating ⟨false, List.replicate 96 0⟩ [] (List.replicate 32 0)).2
     rfl (by decide) _ rfl⟩

/-- Claim C2: the pipeline has no hidden input besides seed, path and
message — two keystore states that are both unlocked and hold the same
seed give byte-identical results for `get_xpub` and for `sign`, so
repeated calls on one state agree as well. -/
theorem C2_determinism (s1 s2 : KeystoreState) (path msg : List Nat)
    (hseed : s1.seed = s2.seed) (h1 : s1.locked = false) (h2 : s2.locked = false) :
    get_xpub s1 path = get_xpub s2 path ∧ sign s1 path msg = sign s2 path msg := by
  have key : get_xprv s1 path = get_xprv s2 path := by
    simp [get_xprv, get_seed, h1, h2, hseed]
  exact ⟨by simp [get_xpub, key], by simp [sign, key]⟩

/-- Witness for C2 at two distinct but equally-seeded unlocked states. -/
theorem C2_determinism_witness :
    get_xpub ⟨false, List.replicate 96 7⟩ [5] = get_xpub ⟨false, List.replicate 96 7⟩ [5] ∧
      sign ⟨false, List.replicate 96 7⟩ [5] (List.replicate 32 1)
        = sign ⟨false, List.replicate 96 7⟩ [5] (List.replicate 32 1) :=
  C2_determinism ⟨false, List.replicate 96 7⟩ ⟨false, List.replicate 96 7⟩ [5]
    (List.replicate 32 1) rfl rfl rfl

/-- Claim C3: path derivation is the left-to-right fold of the
single-step derivation — deriving along `p1 ++ p2` from any root equals
deriving along `p1` and then along `p2` from the intermediate key, for
every decomposition. -/
theorem C3_path_composition (x : Xprv) (p1 p2 : List Nat) :
    derive_path x (p1 ++ p2) = (derive_path x p1).bind (fun y => derive_path y p2) := by
  simp only [derive_path, List.foldl_append]
  cases h : List.foldl (fun acc i => acc.bind (fun y => deriveStep y i)) (some x) p1 with
  | none => simpa using derive_path_from_none p2
  | some y => simp

/-- Claim C9: the empty path is the identity of derivation — for every
root key `derive_path` of `[]` returns the root unchanged, so `get_xpub`
of the empty path on an unlocked keystore is exactly `public()` of the
normalized root key. -/
theorem C9_empty_path_identity (x : Xprv) (s : KeystoreState)
    (hl : s.locked = false) (hlen : 64 ≤ s.seed.length) :
    derive_path x [] = some x ∧
      get_xpub s [] = Outcome.ok
        ((Xprv.from_normalize (s.seed.take 64) (s.seed.drop 64)).public) := by
  refine ⟨derive_path_nil x, ?_⟩
  have hx : get_xprv s [] = Outcome.ok (Xprv.from_normalize (s.seed.take 64) (s.seed.drop 64)) :=
    (get_xprv_ok_iff s [] _).mpr ⟨hl, hlen, derive_path_nil _⟩
  simp [get_xpub, hx]

/-- Witness for C9 at a concrete root key and unlocked 96-byte state. -/
theorem C9_empty_path_identity_witness :
    derive_path (Xprv.mk 1 2 [3]) [] = some (Xprv.mk 1 2 [3]) ∧
      get_xpub ⟨false, List.replicate 96 0⟩ [] = Outcome.ok
        ((Xprv.from_normalize ((List.replicate 96 0).take 64)
          ((List.replicate 96 0).drop 64)).public) :=
  C9_empty_path_identity (Xprv.mk 1 2 [3]) ⟨false, List.replicate 96 0⟩ rfl (by decide)

/-- Claim C10: the slicing `root[..64]` and `root[64..]` in `get_xprv`
is well-defined exactly when the seed has at least
`ED25519_EXPANDED_SECRET_KEY_SIZE = 64` bytes; on an unlocked keystore
with a shorter seed the slice is out of bounds, which is a panic and not
a returned error, so totality of the pipeline rests on the seed provider
returning at least 64 (per the spec, 96) bytes. -/
theorem C10_seed_length_precondition (s : KeystoreState) (path : List Nat)
    (hl : s.locked = false) :
    (64 ≤ s.seed.length →
      sliceTo s.seed ED25519_EXPANDED_SECRET_KEY_SIZE = some (s.seed.take 64) ∧
        sliceFrom s.seed ED25519_EXPANDED_SECRET_KEY_SIZE = some (s.seed.drop 64)) ∧
    (s.seed.length < 64 →
      get_xprv s path = Outcome.crash ∧ get_xprv s path ≠ Outcome.err) := by
  constructor
  · intro hlen
    constructor
    · simp [sliceTo, ED25519_EXPANDED_SECRET_KEY_SIZE, hlen]
    · simp [sliceFrom, ED25519_EXPANDED_SECRET_KEY_SIZE, hlen]
  · intro hshort
    have hTo : sliceTo s.seed ED25519_EXPANDED_SECRET_KEY_SIZE = none := by
      simp [sliceTo, ED25519_EXPANDED_SECRET_KEY_SIZE]
      omega
    have hcrash : get_xprv s path = Outcome.crash := by
      simp [get_xprv, get_seed, hl, hTo]
    exact ⟨hcrash, by simp [hcrash]⟩

/-- Witness for C10 at a 96-byte unlocked state and at a 10-byte
unlocked state. -/
theorem C10_seed_length_precondition_witness :
    (sliceTo (List.replicate 96 0) ED25519_EXPANDED_SECRET_KEY_SIZE
        = some ((List.replicate 96 0).take 64) ∧
      sliceFrom (List.replicate 96 0) ED25519_EXPANDED_SECRET_KEY_SIZE
        = some ((List.replicate 96 0).drop 64)) ∧
    (get_xprv ⟨false, List.replicate 10 0⟩ [] = Outcome.crash ∧
      get_xprv ⟨false, List.replicate 10 0⟩ [] ≠ Outcome.err) :=
  ⟨(C10_seed_length_precondition ⟨false, List.replicate 96 0⟩ [] rfl).1 (by decide),
   (C10_seed_length_precondition ⟨false, List.replicate 10 0⟩ [] rfl).2 (by decide)⟩

theorem clamp_mod_eight (n : Nat) : clamp n % 8 = 0 := by
  have h : (2 : Nat) ^ 254 = 8 * 2 ^ 251 := by norm_num
  simp only [clamp, h]
  omega

theorem clamp_div_pow_mod_two (n i : Nat) (h3 : 3 ≤ i) (h254 : i < 254) :
    clamp n / 2 ^ i % 2 = n / 2 ^ i % 2 := by
  have hdvd : (2 : Nat) ^ i ∣ 2 ^ 254 := pow_dvd_pow 2 (le_of_lt h254)
  have hpow8 : (2 : Nat) ^ i = 8 * 2 ^ (i - 3) := by
    have h8 : (8 : Nat) = 2 ^ 3 := by norm_num
    rw [h8, ← pow_add]
    congr 1
    omega
  have hpow254 : (2 : Nat) ^ 254 = 2 ^ i * 2 ^ (254 - i) := by
    rw [← pow_add]
    congr 1
    omega
  have hsplit2 : (2 : Nat) ^ (254 - i) = 2 * 2 ^ (254 - i - 1) := by
    conv_lhs => rw [show 254 - i = (254 - i - 1) + 1 by omega]
    rw [pow_succ']
  have heven : 2 ^ (254 - i) % 2 = 0 := by
    rw [hsplit2]
    exact Nat.mul_mod_right 2 _
  have hleft : clamp n / 2 ^ i = 2 ^ (254 - i) + n % 2 ^ 254 / 2 ^ i := by
    have h8part : n % 2 ^ 254 / 8 * 8 / 2 ^ i = n % 2 ^ 254 / 2 ^ i := by
      calc n % 2 ^ 254 / 8 * 8 / 2 ^ i
          = 8 * (n % 2 ^ 254 / 8) / (8 * 2 ^ (i - 3)) := by
            rw [Nat.mul_comm (n % 2 ^ 254 / 8) 8, hpow8]
        _ = n % 2 ^ 254 / 8 / 2 ^ (i - 3) := Nat.mul_div_mul_left _ _ (by norm_num)
        _ = n % 2 ^ 254 / (8 * 2 ^ (i - 3)) := Nat.div_div_eq_div_mul _ _ _
        _ = n % 2 ^ 254 / 2 ^ i := by rw [← hpow8]
    calc clamp n / 2 ^ i
        = 2 ^ 254 / 2 ^ i + n % 2 ^ 254 / 8 * 8 / 2 ^ i := Nat.add_div_of_dvd_right hdvd
      _ = 2 ^ (254 - i) + n % 2 ^ 254 / 2 ^ i := by
          rw [Nat.pow_div (le_of_lt h254) (by norm_num), h8part]
  have hright : n / 2 ^ i % 2 = n % 2 ^ 254 / 2 ^ i % 2 := by
    have hsplit : n / 2 ^ i = 2 ^ (254 - i) * (n / 2 ^ 254) + n % 2 ^ 254 / 2 ^ i := by
      conv_lhs => rw [← Nat.div_add_mod n (2 ^ 254)]
      rw [Nat.add_div_of_dvd_right (by exact Dvd.dvd.mul_right hdvd _)]
      congr 1
      rw [hpow254, Nat.mul_assoc, Nat.mul_div_cancel_left _ (Nat.pos_pow_of_pos i (by norm_num))]
    rw [hsplit]
    have heven2 : 2 ^ (254 - i) * (n / 2 ^ 254) % 2 = 0 := by
      rw [hsplit2, Nat.mul_assoc]
      exact Nat.mul_mod_right 2 _
    omega
  rw [hleft, hright]
  omega

theorem clamp_testBit_high (n : Nat) :
    (clamp n).testBit 254 = true ∧ (clamp n).testBit 255 = false := by
  constructor
  · have hlt : n % 2 ^ 254 / 8 * 8 < 2 ^ 254 :=
      lt_of_le_of_lt (Nat.div_mul_le_self _ _)
        (Nat.mod_lt _ (Nat.pos_pow_of_pos 254 (by norm_num)))
    have hdiv : clamp n / 2 ^ 254 = 1 := by
      simp only [clamp]
      rw [Nat.add_div_of_dvd_right dvd_rfl, Nat.div_self (Nat.pos_pow_of_pos 254 (by norm_num)),
        Nat.div_eq_of_lt hlt]
    rw [Nat.testBit_to_div_mod, hdiv]
    rfl
  · have hdiv : clamp n / 2 ^ 255 = 0 := Nat.div_eq_of_lt (clamp_lt n)
    rw [Nat.testBit_to_div_mod, hdiv]
    rfl

/-- Claim C4: given that the extended private key was derived, signing
fails with the unit error exactly when the 64-byte expanded secret key
cannot be parsed by the signing primitive; it never panics, and since
the expanded secret key always has 64 bytes it in fact succeeds with a
full 64-byte signature and 32-byte public key — all-or-nothing, no
partial output. -/
theorem C4_sign_failure_iff_parse (s : KeystoreState) (path msg : List Nat)
    (x : Xprv) (hx : get_xprv s path = Outcome.ok x) :
    (sign s path msg = Outcome.err ↔
      ExpandedSecretKey.from_bytes x.expanded_secret_key = Except.error ()) ∧
    sign s path msg ≠ Outcome.crash ∧
    ∃ r, sign s path msg = Outcome.ok r ∧
      r.signature.length = 64 ∧ r.public_key.length = 32 := by
  have hfb : ExpandedSecretKey.from_bytes x.expanded_secret_key
      = Except.ok ⟨fromLE (x.expanded_secret_key.take 32) % 2 ^ 255,
          x.expanded_secret_key.drop 32⟩ := by
    simp [ExpandedSecretKey.from_bytes, expanded_secret_key_length]
  have hs : sign s path msg = Outcome.ok
      ⟨ExpandedSecretKey.dalekSign
          ⟨fromLE (x.expanded_secret_key.take 32) % 2 ^ 255, x.expanded_secret_key.drop 32⟩
          msg
          (publicKeyFrom
            ⟨fromLE (x.expanded_secret_key.take 32) % 2 ^ 255,
              x.expanded_secret_key.drop 32⟩),
        publicKeyFrom
          ⟨fromLE (x.expanded_secret_key.take 32) % 2 ^ 255,
            x.expanded_secret_key.drop 32⟩⟩ := by
    simp [sign, hx, hfb]
  refine ⟨⟨fun h => ?_, fun h => ?_⟩, by simp [hs], _, hs, ?_, ?_⟩
  · rw [hs] at h
    exact absurd h (by simp)
  · rw [hfb] at h
    exact absurd h (by simp)
  · simp [ExpandedSecretKey.dalekSign, scalarMulBase_length, toLE_length]
  · simp [publicKeyFrom, scalarMulBase_length]

/-- Witness for C4 at an unlocked all-zero 96-byte seed and the empty
path. -/
theorem C4_sign_failure_iff_parse_witness :
    (sign ⟨false, List.replicate 96 0⟩ [] (List.replicate 32 0) = Outcome.err ↔
      ExpandedSecretKey.from_bytes
          (Xprv.from_normalize ((List.replicate 96 0).take 64)
            ((List.replicate 96 0).drop 64)).expanded_secret_key
        = Except.error ()) ∧
    sign ⟨false, List.replicate 96 0⟩ [] (List.replicate 32 0) ≠ Outcome.crash ∧
    ∃ r, sign ⟨false, List.replicate 96 0⟩ [] (List.replicate 32 0) = Outcome.ok r ∧
      r.signature.length = 64 ∧ r.public_key.length = 32 :=
  C4_sign_failure_iff_parse ⟨false, List.replicate 96 0⟩ [] (List.replicate 32 0)
    (Xprv.from_normalize ((List.replicate 96 0).take 64) ((List.replicate 96 0).drop 64))
    rfl

/-- Claim C5: whenever the key for a path could be derived, signing
succeeds and the `public_key` field of the result is recomputed from the
parsed expanded secret key and equals the public key that `get_xpub`
reports for the same path. -/
theorem C5_public_key_consistency (s : KeystoreState) (path msg : List Nat)
    (x : Xprv) (hx : get_xprv s path = Outcome.ok x) :
    ∃ r xp sk, sign s path msg = Outcome.ok r ∧ get_xpub s path = Outcome.ok xp ∧
      ExpandedSecretKey.from_bytes x.expanded_secret_key = Except.ok sk ∧
      r.public_key = publicKeyFrom sk ∧ r.public_key = xp.pubkey_bytes := by
  have hkllt : x.kl < 2 ^ 255 := get_xprv_kl_lt s path x hx
  have htake : x.expanded_secret_key.take 32 = toLE 32 x.kl := by
    rw [Xprv.expanded_secret_key, List.take_left' (toLE_length 32 x.kl)]
  have hkey : fromLE (x.expanded_secret_key.take 32) % 2 ^ 255 = x.kl := by
    rw [htake, fromLE_toLE 32 x.kl
      (lt_trans hkllt (Nat.pow_lt_pow_right one_lt_two (by norm_num)))]
    exact Nat.mod_eq_of_lt hkllt
  have hfb : ExpandedSecretKey.from_bytes x.expanded_secret_key
      = Except.ok ⟨x.kl, x.expanded_secret_key.drop 32⟩ := by
    rw [ExpandedSecretKey.from_bytes, if_pos (expanded_secret_key_length x), hkey]
  have hs : sign s path msg = Outcome.ok
      ⟨ExpandedSecretKey.dalekSign ⟨x.kl, x.expanded_secret_key.drop 32⟩ msg
          (publicKeyFrom ⟨x.kl, x.expanded_secret_key.drop 32⟩),
        publicKeyFrom ⟨x.kl, x.expanded_secret_key.drop 32⟩⟩ := by
    simp [sign, hx, hfb]
  have hp : get_xpub s path = Outcome.ok x.public := by simp [get_xpub, hx]
  exact ⟨_, _, _, hs, hp, hfb, rfl,
    by simp [publicKeyFrom, Xpub.pubkey_bytes, Xprv.public]⟩

/-- Witness for C5 at an unlocked all-zero 96-byte seed and the empty
path. -/
theorem C5_public_key_consistency_witness :
    ∃ r xp sk, sign ⟨false, List.replicate 96 0⟩ [] (List.replicate 32 0) = Outcome.ok r ∧
      get_xpub ⟨false, List.replicate 96 0⟩ [] = Outcome.ok xp ∧
      ExpandedSecretKey.from_bytes
          (Xprv.from_normalize ((List.replicate 96 0).take 64)
            ((List.replicate 96 0).drop 64)).expanded_secret_key
        = Except.ok sk ∧
      r.public_key = publicKeyFrom sk ∧ r.public_key = xp.pubkey_bytes :=
  C5_public_key_consistency ⟨false, List.replicate 96 0⟩ [] (List.replicate 32 0)
    (Xprv.from_normalize ((List.replicate 96 0).take 64) ((List.replicate 96 0).drop 64))
    rfl

/-- Claim C6: the scalar-validity retry loop of a single derivation step
terminates on every input — it returns the candidate built from the
first iteration counter below the sanity bound of 1000 whose combined
scalar passes the validity bit check, and signals an internal invariant
violation (`none`) exactly when no iteration below the bound passes,
instead of looping forever. -/
theorem C6_retry_loop_termination (x : Xprv) (index : Nat) :
    (deriveStep x index).elim
      (∀ i, i < 1000 → validKl (candidateKl x index i) = false)
      (fun c => ∃ i, i < 1000 ∧ validKl (candidateKl x index i) = true ∧
        (∀ j, j < i → validKl (candidateKl x index j) = false) ∧
        c = ⟨candidateKl x index i, candidateKr x index i, candidateCc x index i⟩) := by
  cases h : deriveStep x index with
  | none =>
    simp only [Option.elim]
    intro i hi
    exact deriveStepAux_none x index 0 1000 h i (Nat.zero_le i) (by omega)
  | some c =>
    simp only [Option.elim]
    obtain ⟨i, _, hi2, hi3, hi4, hi5⟩ := deriveStepAux_some x index 0 1000 c h
    exact ⟨i, by omega, hi3, fun j hj => hi4 j (Nat.zero_le j) hj, hi5⟩

/-- Claim C7: `from_normalize` is total and deterministic on every
96-byte input — it always produces a root key whose chain code is the
given one, whose scalar half is the first 32 bytes clamped by the
standard Ed25519 rule (lowest three bits cleared, bit 254 set, bit 255
cleared, all other bits taken from the input), whose nonce half is the
next 32 bytes unchanged, and whose public key is the clamped scalar
times the base point. -/
theorem C7_from_normalize_total (esk cc : List Nat) (hlen : esk.length = 64)
    (hb : ∀ b ∈ esk, b < 256) :
    (Xprv.from_normalize esk cc).cc = cc ∧
    (Xprv.from_normalize esk cc).kl = clamp (fromLE (esk.take 32)) ∧
    (Xprv.from_normalize esk cc).kl % 8 = 0 ∧
    (Xprv.from_normalize esk cc).kl.testBit 254 = true ∧
    (Xprv.from_normalize esk cc).kl.testBit 255 = false ∧
    (∀ i, 3 ≤ i → i < 254 →
      (Xprv.from_normalize esk cc).kl.testBit i = (fromLE (esk.take 32)).testBit i) ∧
    (Xprv.from_normalize esk cc).expanded_secret_key.drop 32 = esk.drop 32 ∧
    (Xprv.from_normalize esk cc).public.pubkey
      = scalarMulBase (clamp (fromLE (esk.take 32))) := by
  have hkl : (Xprv.from_normalize esk cc).kl = clamp (fromLE (esk.take 32)) := rfl
  refine ⟨rfl, rfl, clamp_mod_eight _, (clamp_testBit_high _).1, (clamp_testBit_high _).2,
    ?_, ?_, rfl⟩
  · intro i h3 h254
    rw [hkl, Nat.testBit_to_div_mod, Nat.testBit_to_div_mod,
      clamp_div_pow_mod_two (fromLE (esk.take 32)) i h3 h254]
  · have hdrop : (Xprv.from_normalize esk cc).expanded_secret_key.drop 32
        = toLE 32 (fromLE (esk.drop 32)) := by
      rw [Xprv.expanded_secret_key,
        List.drop_left' (toLE_length 32 (Xprv.from_normalize esk cc).kl)]
      rfl
    have hdlen : (esk.drop 32).length = 32 := by
      rw [List.length_drop, hlen]
    have hround := toLE_fromLE (esk.drop 32)
      (fun b hbm => hb b (List.mem_of_mem_drop hbm))
    rw [hdlen] at hround
    rw [hdrop, hround]

/-- Witness for C7 at a concrete 64-byte candidate secret key and
chain code. -/
theorem C7_from_normalize_total_witness :
    (Xprv.from_normalize (List.replicate 64 255) (List.replicate 32 9)).cc
        = List.replicate 32 9 ∧
    (Xprv.from_normalize (List.replicate 64 255) (List.replicate 32 9)).kl
        = clamp (fromLE ((List.replicate 64 255).take 32)) ∧
    (Xprv.from_normalize (List.replicate 64 255) (List.replicate 32 9)).kl % 8 = 0 ∧
    (Xprv.from_normalize (List.replicate 64 255) (List.replicate 32 9)).kl.testBit 254
        = true ∧
    (Xprv.from_normalize (List.replicate 64 255) (List.replicate 32 9)).kl.testBit 255
        = false ∧
    (∀ i, 3 ≤ i → i < 254 →
      (Xprv.from_normalize (List.replicate 64 255) (List.replicate 32 9)).kl.testBit i
        = (fromLE ((List.replicate 64 255).take 32)).testBit i) ∧
    (Xprv.from_normalize (List.replicate 64 255)
        (List.replicate 32 9)).expanded_secret_key.drop 32
      = (List.replicate 64 255).drop 32 ∧
    (Xprv.from_normalize (List.replicate 64 255) (List.replicate 32 9)).public.pubkey
      = scalarMulBase (clamp (fromLE ((List.replicate 64 255).take 32))) :=
  C7_from_normalize_total (List.replicate 64 255) (List.replicate 32 9) (by decide)
    (by decide)

end BitBox
